import Mathlib

/-!
# Service Standards Auditor — verification of the audit execution engine

A shallow embedding of the audit execution engine of the
`service-standards-auditor` repository: service discovery options
(`ServiceScanner`), rule instantiation (`RuleFactory.createRule`), the rule
execution orchestrator (`RuleEngine.executeRules` /
`RuleEngine.executeRulesParallel`), per-service aggregation
(`Auditor.auditSingleService`, `Auditor.checkRequiredRules`,
`Auditor.audit`), the built-in rules (`FileExistsRule`, `CoverageRule`) and
the bounded-concurrency mapper (`mapWithConcurrency`).

Filesystem reads and asynchronous suspension are modelled by explicit
parameters (a rule's `evaluate` is a function from a service to an
`Except`-value; the concurrency pool is a small-step transition system over
worker states).  JavaScript numbers appearing in score arithmetic are
modelled as rationals, `Math.round` as `⌊q + 1/2⌋`.
-/

namespace SSA

/-- A discovered service (`src/types/service.ts`): identity is `path`;
`name`/`version`/`description` are best-effort manifest metadata. -/
structure Service where
  name : String
  path : String
  type : String
  version : Option String := none
  description : Option String := none
  deriving Repr, DecidableEq

/-- A declarative rule specification (`RuleConfig` in `src/types/config.ts`):
a `name`, a `type` tag (the rule kind, a string in the source), a `required`
flag, and kind-specific parameters (not needed for the orchestration claims). -/
structure RuleSpec where
  name : String
  type : String
  required : Bool
  deriving Repr, DecidableEq

/-- Outcome of one rule evaluation (`RuleResult` in `src/types/result.ts`).
The optional `details` payload carries no orchestration semantics and is not
modelled. -/
structure RuleResult where
  ruleName : String
  passed : Bool
  message : String
  deriving Repr, DecidableEq

/-- `ServiceAuditResult` (`src/types/result.ts`): per-service aggregation. -/
structure ServiceAuditResult where
  serviceName : String
  servicePath : String
  results : List RuleResult
  passed : Bool
  score : ℚ
  deriving Repr, DecidableEq

/-- Summary block of an `AuditReport`. -/
structure AuditSummary where
  totalServices : ℕ
  passedServices : ℕ
  failedServices : ℕ
  passRate : ℚ
  deriving Repr, DecidableEq

/-- `AuditReport` (`src/types/result.ts`).  The wall-clock `timestamp` field
is ambient time and carries no audit semantics; it is not modelled. -/
structure AuditReport where
  services : List ServiceAuditResult
  summary : AuditSummary
  deriving Repr, DecidableEq

/-- JavaScript `Math.round`: round half toward positive infinity,
`⌊x + 1/2⌋`. -/
def jsRound (q : ℚ) : ℤ := ⌊q + 1/2⌋

/-! ## Service discovery options (`src/scanner/service-scanner.js`)

The `ServiceScanner` constructor computes the effective exclusion globs as
`options.exclude || [defaults]`: the defaults are used exactly when the
caller supplies no `exclude` (in JavaScript any supplied array, even an
empty one, is truthy and is used as-is). -/

/-- The scanner's built-in default exclusion globs. -/
def defaultExclude : List String :=
  ["**/node_modules/**", "**/dist/**", "**/build/**", "**/.git/**", "**/coverage/**"]

/-- Effective exclusion patterns computed by the `ServiceScanner`
constructor: `options.exclude || [...defaults]`.  `none` models an absent
`exclude` option; `some l` a caller-supplied array `l`. -/
def scannerExclude (exclude : Option (List String)) : List String :=
  exclude.getD defaultExclude

/-! ## File-existence rule (`src/rules/implementations/file-exists-rule.ts`) -/

/-- `FileExistsRule.evaluate` mode selection:
`this.target.includes('*') || this.target.includes('{')`. -/
def isGlobPattern (target : String) : Bool :=
  target.data.contains '*' || target.data.contains '{'

/-- Result of `evaluateSimplePath`: `fsEntry` models `access`+`stat` on the
joined path (`none` = not accessible, `some true` = directory,
`some false` = file). -/
def evaluateSimplePath (ruleName target svcPath : String)
    (fsEntry : String → Option Bool) : RuleResult :=
  let targetPath := svcPath ++ "/" ++ target
  match fsEntry targetPath with
  | some isDir =>
      { ruleName := ruleName, passed := true
        message := target ++ " exists (" ++ (if isDir then "directory" else "file") ++ ")" }
  | none =>
      { ruleName := ruleName, passed := false
        message := target ++ " not found" }

/-- Result of `evaluateGlob`: `globFn` models the `fast-glob` call rooted at
the service path, returning the list of matches. -/
def evaluateGlob (ruleName target svcPath : String)
    (globFn : String → String → List String) : RuleResult :=
  let ms := globFn svcPath target
  if ms.length > 0 then
    { ruleName := ruleName, passed := true
      message := "Found " ++ toString ms.length ++ " file(s) matching pattern: " ++ target }
  else
    { ruleName := ruleName, passed := false
      message := "No files found matching pattern: " ++ target }

/-- `FileExistsRule.evaluate`: choose glob matching iff the target contains
a glob metacharacter as the source detects it (`*` or `{`). -/
def fileExistsEvaluate (ruleName target svcPath : String)
    (fsEntry : String → Option Bool) (globFn : String → String → List String) : RuleResult :=
  if isGlobPattern target then
    evaluateGlob ruleName target svcPath globFn
  else
    evaluateSimplePath ruleName target svcPath fsEntry

/-! ## Coverage rule (`src/rules/implementations/coverage-rule.ts`) -/

/-- Parsed `coverage/coverage-summary.json` `total` block: the four metric
percentages. -/
structure CoverageSummary where
  lines : ℚ
  statements : ℚ
  functions : ℚ
  branches : ℚ
  deriving Repr, DecidableEq

/-- `CoverageRule.evaluate`.  The `readFile` + `JSON.parse` of the artifact
is modelled by `artifact : Option CoverageSummary` (`none` = missing or
unparsable, in which case the `catch` branch returns a failing result — no
error escapes `evaluate`).  `fmt` models JavaScript's `Number.toFixed(1)`
rendering, which carries no pass/fail semantics. -/
def coverageEvaluate (ruleName : String) (threshold : ℚ) (svcPath : String)
    (artifact : Option CoverageSummary) (fmt : ℚ → String) : RuleResult :=
  let coveragePath := svcPath ++ "/coverage/coverage-summary.json"
  match artifact with
  | some s =>
      let avgCoverage := (s.lines + s.statements + s.functions + s.branches) / 4
      let passed := avgCoverage ≥ threshold
      { ruleName := ruleName
        passed := passed
        message :=
          if passed then
            "Coverage " ++ fmt avgCoverage ++ "% meets threshold of " ++ fmt threshold ++ "%"
          else
            "Coverage " ++ fmt avgCoverage ++ "% is below threshold of " ++ fmt threshold ++ "%" }
  | none =>
      { ruleName := ruleName
        passed := false
        message := "Coverage report not found or invalid at " ++ coveragePath }

/-! ## Rule instances and the rule engine (`src/rules/rule-engine.ts`)

A rule instance (`BaseRule`) carries its configured name and `required`
flag and an `evaluate` method.  Evaluation may finish with a `RuleResult`
(`Except.ok`) or throw (`Except.error msg`); the thrown value's `.message`
is the string carried by `Except.error`. -/

/-- A constructed rule instance (`BaseRule`). -/
structure Rule where
  name : String
  required : Bool
  eval : Service → Except String RuleResult

/-- The engine's per-rule try/catch: a thrown error becomes a synthetic
failing result attributed to `rule.getName()`, message
`"Rule execution failed: <cause>"`. -/
def runRule (rule : Rule) (service : Service) : RuleResult :=
  match rule.eval service with
  | .ok result => result
  | .error errorMessage =>
      { ruleName := rule.name
        passed := false
        message := "Rule execution failed: " ++ errorMessage }

/-- `RuleEngine.executeRules`: sequential loop over the registered rules,
each one guarded by the try/catch, results appended in registration order. -/
def executeRules : List Rule → Service → List RuleResult
  | [], _ => []
  | rule :: rest, service => runRule rule service :: executeRules rest service

/-- One completion of `Promise.all`'s collection: the promise for index `i`
settles and its value is stored into slot `i` of the results array. -/
def fillSlot (rules : List Rule) (service : Service)
    (acc : List (Option RuleResult)) (i : ℕ) : List (Option RuleResult) :=
  match rules.get? i with
  | some rule => acc.set i (some (runRule rule service))
  | none => acc

/-- `RuleEngine.executeRulesParallel`: all rules are launched together and
`Promise.all` collects each rule's (try/catch-guarded) value into the slot
of its original index.  `order` is the completion order of the promises —
any permutation of the indices; slots are read back in index order. -/
def executeRulesParallel (rules : List Rule) (service : Service)
    (order : List ℕ) : List RuleResult :=
  ((order.foldl (fillSlot rules service) (List.replicate rules.length none))).reduceOption

/-! ## Per-service aggregation (`src/auditor.js`) -/

/-- Auditor configuration (`AuditorConfig`): the rule specs and the
`parallel` flag. -/
structure AuditorConfig where
  rules : List RuleSpec
  parallel : Bool
  deriving Repr, DecidableEq

/-- `Auditor.checkRequiredRules`: collect the names of the `required:true`
specs and fail iff some result carrying one of those names has
`passed:false`. -/
def checkRequiredRules (config : AuditorConfig) (results : List RuleResult) : Bool :=
  let requiredRuleNames := (config.rules.filter (·.required)).map (·.name)
  results.all (fun result => !(requiredRuleNames.contains result.ruleName) || result.passed)

/-- The raw score `(passedRules / ruleResults.length) * 100` (0 when no
rules ran) before rounding. -/
def rawScore (ruleResults : List RuleResult) : ℚ :=
  if ruleResults.length > 0 then
    ((ruleResults.filter (·.passed)).length : ℚ) / (ruleResults.length : ℚ) * 100
  else 0

/-- `Auditor.auditSingleService`: run the rules (parallel or sequential per
config, `order` being the completion order in parallel mode), then compute
score (`Math.round(score * 10) / 10`) and the required-rule verdict. -/
def auditSingleService (config : AuditorConfig) (rules : List Rule)
    (service : Service) (order : List ℕ) : ServiceAuditResult :=
  let ruleResults :=
    if config.parallel then executeRulesParallel rules service order
    else executeRules rules service
  let score := rawScore ruleResults
  let allRequiredPassed := checkRequiredRules config ruleResults
  { serviceName := service.name
    servicePath := service.path
    results := ruleResults
    passed := allRequiredPassed
    score := (jsRound (score * 10) : ℚ) / 10 }

/-! ## Rule instantiation (`src/rules/rule-factory.ts`) -/

/-- The body a known-kind constructor installs for `evaluate` is irrelevant
to the instantiation claims; the factory claims are about which kinds
construct at all.  `mkEval` supplies the constructed rule's evaluate
behaviour (a function of the spec). -/
def createRule (mkEval : RuleSpec → Service → Except String RuleResult)
    (config : RuleSpec) : Except String Rule :=
  match config.type with
  | "file-exists" => .ok ⟨config.name, config.required, mkEval config⟩
  | "semver" => .ok ⟨config.name, config.required, mkEval config⟩
  | "coverage" => .ok ⟨config.name, config.required, mkEval config⟩
  | "custom" =>
      .error ("Custom rules are not yet implemented. Rule: " ++ config.name)
  | other =>
      .error ("Unsupported rule type: " ++ other ++ ". Rule: " ++ config.name)

/-- `RuleFactory.createRules`: instantiate every spec; the first throwing
spec aborts the whole instantiation. -/
def createRules (mkEval : RuleSpec → Service → Except String RuleResult)
    (configs : List RuleSpec) : Except String (List Rule) :=
  configs.mapM (createRule mkEval)

/-- The kind strings `RuleFactory.createRule` has cases for (every other
string hits the `default` branch and throws `Unsupported rule type`). -/
def knownRuleKinds : List String := ["file-exists", "semver", "coverage", "custom"]

/-! ## The audit pipeline (`Auditor.audit`) -/

/-- `Auditor.createReport`: summary statistics over the per-service
results; `passRate` is rounded to two decimal places. -/
def createReport (serviceResults : List ServiceAuditResult) : AuditReport :=
  let passedServices := (serviceResults.filter (·.passed)).length
  let failedServices := serviceResults.length - passedServices
  let passRate :=
    if serviceResults.length > 0 then
      ((passedServices : ℚ) / (serviceResults.length : ℚ)) * 100
    else 0
  { services := serviceResults
    summary :=
      { totalServices := serviceResults.length
        passedServices := passedServices
        failedServices := failedServices
        passRate := (jsRound (passRate * 100) : ℚ) / 100 } }

/-- `Auditor.createEmptyReport`. -/
def createEmptyReport : AuditReport :=
  { services := []
    summary := { totalServices := 0, passedServices := 0, failedServices := 0, passRate := 0 } }

/-- `Auditor.audit`: scan first (its outcome, a thrown scan error or the
discovered service list, is the `scanOutcome` argument — discovery reads the
services' manifests); an empty scan short-circuits to the empty report
*before* rule instantiation; then `RuleFactory.createRules` (a throw here
aborts the run); then every discovered service is evaluated
(`evalService`, the per-service audit, receiving the instantiated rules);
finally the report is assembled. -/
def audit (config : AuditorConfig)
    (mkEval : RuleSpec → Service → Except String RuleResult)
    (scanOutcome : Except String (List Service))
    (evalService : Service → List Rule → ServiceAuditResult) :
    Except String AuditReport :=
  match scanOutcome with
  | .error e => .error e
  | .ok services =>
    if services.length = 0 then .ok createEmptyReport
    else
      match createRules mkEval config.rules with
      | .error e => .error e
      | .ok rules => .ok (createReport (services.map (fun s => evalService s rules)))

/-! ## Bounded-concurrency mapper (`src/utils/concurrency.js`)

```js
export async function mapWithConcurrency(items, fn, concurrency = 5) {
    const results = new Array(items.length);
    let index = 0;
    const worker = async () => {
        while (index < items.length) {
            const currentIndex = index++;
            results[currentIndex] = await fn(items[currentIndex], currentIndex);
        }
    };
    const workers = Array.from({ length: Math.min(concurrency, items.length) }, () => worker());
    await Promise.all(workers);
    return results;
}
```

Small-step semantics.  JavaScript is single-threaded and cooperative: the
only suspension point in a worker is `await fn(...)`, so the loop check,
`index++` and the start of `fn` happen atomically, and completion of an
`await` together with the following loop iteration up to the next `await`
is again one atomic step.  The pool state records the shared `index`
counter, each worker's status (`some i` = awaiting `fn(items[i])`; `none`
= its loop exited), and the results array (slot `i` is written when the
`await` for index `i` completes).  The async transform `fn` is modelled by
a pure `f` (its eventual value per item); completion order is the
nondeterminism of the step relation. -/

structure PoolState (β : Type) where
  next : ℕ
  workers : List (Option ℕ)
  results : List (Option β)

/-- One scheduler step: the `await` of worker `w` (in flight on index `i`)
completes with value `f a`; the worker writes slot `i` and synchronously
re-enters its loop, either claiming the next unclaimed index (when
`index < items.length`) or exiting. -/
inductive PoolStep (items : List α) (f : α → β) : PoolState β → PoolState β → Prop
  | complete (s : PoolState β) (w i : ℕ) (a : α)
      (hw : s.workers.get? w = some (some i))
      (ha : items.get? i = some a) :
      PoolStep items f s
        { next := if s.next < items.length then s.next + 1 else s.next
          workers := s.workers.set w
            (if s.next < items.length then some s.next else none)
          results := s.results.set i (some (f a)) }

/-- `Array.from({length: min(K, N)}, () => worker())` runs synchronously:
worker `j` immediately claims index `j`.  State right after spawning. -/
def initPool (items : List α) (K : ℕ) : PoolState β :=
  { next := min K items.length
    workers := (List.range (min K items.length)).map (fun j => some j)
    results := List.replicate items.length none }

/-- States the pool can reach from the post-spawn state. -/
def PoolReachable (items : List α) (f : α → β) (K : ℕ) (s : PoolState β) : Prop :=
  Relation.ReflTransGen (PoolStep items f) (initPool items K) s

/-- The value `mapWithConcurrency` returns once all workers have finished:
the results array (all slots written). -/
def poolReturn (s : PoolState β) : List β :=
  s.results.reduceOption

/-- All workers' loops have exited (`Promise.all` resolves). -/
def poolDone (s : PoolState β) : Prop :=
  ∀ ow ∈ s.workers, ow = none

/-- Number of transform invocations currently in flight. -/
def inFlight (s : PoolState β) : ℕ :=
  (s.workers.filter (fun ow => ow.isSome)).length

/-! Concrete two-item, one-worker run of the pool, used to instantiate the
concurrency theorems: `[10, 20]` mapped through `n + 1` with limit 1. -/

/-- State after the single worker finished item 0 and claimed item 1. -/
def poolEx1 : PoolState ℕ := { next := 2, workers := [some 1], results := [some 11, none] }

/-- Terminal state of the concrete run. -/
def poolEx2 : PoolState ℕ := { next := 2, workers := [none], results := [some 11, some 21] }

/-- The spec's rounding to one decimal place, written as it appears in the
spec: round the value multiplied by ten, divide back by ten. -/
def roundTo1 (q : ℚ) : ℚ := (jsRound (q * 10) : ℚ) / 10

/-! Concrete instances used to instantiate the theorems. -/

/-- A sample service. -/
def svcEx : Service := { name := "svc", path := "/repo/svc", type := "node" }

/-- A configuration whose single rule spec has an unrecognised kind. -/
def cfgBadKind : AuditorConfig :=
  { rules := [{ name := "My Rule", type := "bogus", required := true }], parallel := false }

/-- A configuration with two specs sharing one name: the first required,
the second optional. -/
def cfgDup : AuditorConfig :=
  { rules := [{ name := "A", type := "file-exists", required := true },
              { name := "A", type := "file-exists", required := false }],
    parallel := false }

/-- A rule named `A` whose evaluation passes. -/
def ruleAPass : Rule :=
  { name := "A", required := true
    eval := fun _ => .ok { ruleName := "A", passed := true, message := "ok" } }

/-- A rule also named `A` (optional) whose evaluation fails. -/
def ruleAFail : Rule :=
  { name := "A", required := false
    eval := fun _ => .ok { ruleName := "A", passed := false, message := "missing" } }

/-- A three-rule configuration (all optional, distinct names). -/
def cfgThree : AuditorConfig :=
  { rules := [{ name := "R1", type := "file-exists", required := false },
              { name := "R2", type := "file-exists", required := false },
              { name := "R3", type := "file-exists", required := false }],
    parallel := false }

/-- Passing rule `R1`. -/
def ruleR1 : Rule :=
  { name := "R1", required := false
    eval := fun _ => .ok { ruleName := "R1", passed := true, message := "ok" } }

/-- Passing rule `R2`. -/
def ruleR2 : Rule :=
  { name := "R2", required := false
    eval := fun _ => .ok { ruleName := "R2", passed := true, message := "ok" } }

/-- Failing rule `R3`. -/
def ruleR3 : Rule :=
  { name := "R3", required := false
    eval := fun _ => .ok { ruleName := "R3", passed := false, message := "missing" } }

/-- A rule whose evaluation throws. -/
def ruleThrows : Rule :=
  { name := "Crashy", required := false
    eval := fun _ => .error "boom" }

/-- The inductive invariant of the worker pool. -/
structure PoolInv (items : List α) (f : α → β) (K : ℕ) (s : PoolState β) : Prop where
  wlen : s.workers.length = min K items.length
  rlen : s.results.length = items.length
  next_le : s.next ≤ items.length
  busy_lt : ∀ w i, s.workers.get? w = some (some i) → i < s.next
  busy_unfilled : ∀ w i, s.workers.get? w = some (some i) → s.results.get? i = some none
  busy_distinct : ∀ w w' i, s.workers.get? w = some (some i) →
    s.workers.get? w' = some (some i) → w = w'
  covered : ∀ i, i < s.next →
    (∃ b, s.results.get? i = some (some b)) ∨ (∃ w, s.workers.get? w = some (some i))
  unstarted : ∀ i, s.next ≤ i → i < items.length → s.results.get? i = some none
  content : ∀ i b, s.results.get? i = some (some b) →
    ∃ a, items.get? i = some a ∧ b = f a
  done_next : poolDone s → items.length ≤ s.next

/-- `get?` of the freshly spawned worker list. -/
lemma initPool_workers_get? (n w : ℕ) :
    (((List.range n).map (fun j => (some j : Option ℕ))).get? w) =
      if w < n then some (some w) else none := by
  by_cases h : w < n
  · rw [List.get?_map, List.get?_range h]
    simp [h]
  · rw [List.get?_map, List.get?_eq_none.mpr]
    · simp [h]
    · simpa [List.length_range] using le_of_not_lt h

/-- `get?` of a replicated-`none` results array. -/
lemma get?_replicate_none {β : Type} (n i : ℕ) :
    ((List.replicate n (none : Option β)).get? i) =
      if i < n then some none else none := by
  induction n generalizing i with
  | zero => simp
  | succ m ih =>
    cases i with
    | zero => simp [List.replicate]
    | succ j => simpa [List.replicate, Nat.succ_lt_succ_iff] using ih j

/-- The invariant holds right after spawning (K ≥ 1 as the contract
demands; with K = 0 the source would return an array of holes). -/
lemma poolInv_init (items : List α) (f : α → β) (K : ℕ) (hK : 1 ≤ K) :
    PoolInv items f K (initPool items K) := by
  constructor
  · simp [initPool]
  · simp [initPool]
  · simp [initPool]
  · intro w i hw
    rw [show (initPool items K : PoolState β).workers =
      (List.range (min K items.length)).map (fun j => (some j : Option ℕ)) from rfl,
      initPool_workers_get?] at hw
    by_cases h : w < min K items.length
    · simp only [h, if_pos] at hw
      cases hw
      exact h
    · simp [h] at hw
  · intro w i hw
    rw [show (initPool items K : PoolState β).workers =
      (List.range (min K items.length)).map (fun j => (some j : Option ℕ)) from rfl,
      initPool_workers_get?] at hw
    by_cases h : w < min K items.length
    · simp only [h, if_pos, Option.some.injEq] at hw
      cases hw
      rw [show (initPool items K : PoolState β).results =
        List.replicate items.length none from rfl, get?_replicate_none]
      have : w < items.length := lt_of_lt_of_le h (min_le_right _ _)
      simp [this]
    · simp [h] at hw
  · intro w w' i hw hw'
    rw [show (initPool items K : PoolState β).workers =
      (List.range (min K items.length)).map (fun j => (some j : Option ℕ)) from rfl,
      initPool_workers_get?] at hw hw'
    by_cases h : w < min K items.length
    · by_cases h' : w' < min K items.length
      · simp only [h, h', if_pos, Option.some.injEq] at hw hw'
        cases hw; cases hw'; rfl
      · simp [h'] at hw'
    · simp [h] at hw
  · intro i hi
    right
    refine ⟨i, ?_⟩
    rw [show (initPool items K : PoolState β).workers =
      (List.range (min K items.length)).map (fun j => (some j : Option ℕ)) from rfl,
      initPool_workers_get?]
    simp only [show i < min K items.length from hi, if_pos]
  · intro i h1 h2
    rw [show (initPool items K : PoolState β).results =
      List.replicate items.length none from rfl, get?_replicate_none]
    simp [h2]
  · intro i b hb
    rw [show (initPool items K : PoolState β).results =
      List.replicate items.length none from rfl, get?_replicate_none] at hb
    by_cases h : i < items.length <;> simp [h] at hb
  · intro hdone
    by_cases hL : items.length = 0
    · simp [initPool, hL]
    · exfalso
      have hmin : 0 < min K items.length :=
        lt_min (lt_of_lt_of_le Nat.zero_lt_one hK) (Nat.pos_of_ne_zero hL)

      have hmem : (some 0 : Option ℕ) ∈ (initPool items K : PoolState β).workers := by
        rw [show (initPool items K : PoolState β).workers =
          (List.range (min K items.length)).map (fun j => (some j : Option ℕ)) from rfl]
        exact List.mem_map_of_mem _ (List.mem_range.mpr hmin)
      exact Option.noConfusion (hdone (some 0) hmem)

/-- One scheduler step preserves the invariant. -/
lemma poolInv_step {items : List α} {f : α → β} {K : ℕ} {s s' : PoolState β}
    (inv : PoolInv items f K s) (hs : PoolStep items f s s') : PoolInv items f K s' := by
  cases hs with
  | complete w i a hw ha =>
    have hwlt : w < s.workers.length := by
      by_contra hcon
      rw [List.get?_eq_none.mpr (le_of_not_lt hcon)] at hw
      exact Option.noConfusion hw
    have hilt : i < s.next := inv.busy_lt w i hw
    have hiL : i < items.length := lt_of_lt_of_le hilt inv.next_le
    have hirlt : i < s.results.length := by rw [inv.rlen]; exact hiL
    constructor
    · simpa [List.length_set] using inv.wlen
    · simpa [List.length_set] using inv.rlen
    · by_cases hlt : s.next < items.length <;> simp [hlt]
      · exact hlt
      · exact inv.next_le
    · intro w' i' hw'
      by_cases hww : w' = w
      · subst hww
        rw [List.get?_set_eq_of_lt _ (by simpa [List.length_set] using hwlt)] at hw'
        by_cases hlt : s.next < items.length
        · simp only [hlt, if_pos, Option.some.injEq] at hw' ⊢
          cases hw'
          omega
        · simp [hlt] at hw'
      · rw [List.get?_set_ne _ _ (fun h => hww h.symm)] at hw'
        have := inv.busy_lt w' i' hw'
        by_cases hlt : s.next < items.length <;> simp [hlt] <;> omega
    · intro w' i' hw'
      by_cases hww : w' = w
      · subst hww
        rw [List.get?_set_eq_of_lt _ (by simpa [List.length_set] using hwlt)] at hw'
        by_cases hlt : s.next < items.length
        · simp only [hlt, if_pos, Option.some.injEq] at hw'
          cases hw'
          have hne : i ≠ s.next := by omega
          rw [List.get?_set_ne _ _ hne]
          exact inv.unstarted s.next le_rfl hlt
        · simp [hlt] at hw'
      · rw [List.get?_set_ne _ _ (fun h => hww h.symm)] at hw'
        have hold := inv.busy_unfilled w' i' hw'
        have hne : i ≠ i' := by
          intro h
          subst h
          exact hww (inv.busy_distinct w' w i hw' hw)
        rw [List.get?_set_ne _ _ hne]
        exact hold
    · intro w1 w2 i' h1 h2
      by_cases hw1 : w1 = w <;> by_cases hw2 : w2 = w
      · rw [hw1, hw2]
      · subst hw1
        rw [List.get?_set_eq_of_lt _ (by simpa [List.length_set] using hwlt)] at h1
        rw [List.get?_set_ne _ _ (fun h => hw2 h.symm)] at h2
        by_cases hlt : s.next < items.length
        · simp only [hlt, if_pos, Option.some.injEq] at h1
          cases h1
          exact absurd (inv.busy_lt w2 s.next h2) (lt_irrefl _)
        · simp [hlt] at h1
      · subst hw2
        rw [List.get?_set_eq_of_lt _ (by simpa [List.length_set] using hwlt)] at h2
        rw [List.get?_set_ne _ _ (fun h => hw1 h.symm)] at h1
        by_cases hlt : s.next < items.length
        · simp only [hlt, if_pos, Option.some.injEq] at h2
          cases h2
          exact absurd (inv.busy_lt w1 s.next h1) (lt_irrefl _)
        · simp [hlt] at h2
      · rw [List.get?_set_ne _ _ (fun h => hw1 h.symm)] at h1
        rw [List.get?_set_ne _ _ (fun h => hw2 h.symm)] at h2
        exact inv.busy_distinct w1 w2 i' h1 h2
    · intro j hj
      have hcore : j < s.next →
          (∃ b, (s.results.set i (some (f a))).get? j = some (some b)) ∨
          (∃ w', (s.workers.set w (if s.next < items.length then some s.next else none)).get? w'
            = some (some j)) := by
        intro hjn
        rcases inv.covered j hjn with ⟨b, hb⟩ | ⟨w0, hw0⟩
        · left
          have hne : i ≠ j := by
            intro h
            subst h
            rw [inv.busy_unfilled w i hw] at hb
            cases hb
          refine ⟨b, ?_⟩
          rw [List.get?_set_ne _ _ hne]
          exact hb
        · by_cases hw0w : w0 = w
          · subst hw0w
            rw [hw] at hw0
            cases hw0
            left
            exact ⟨f a, List.get?_set_eq_of_lt _ hirlt⟩
          · right
            refine ⟨w0, ?_⟩
            rw [List.get?_set_ne _ _ (fun h => hw0w h.symm)]
            exact hw0
      by_cases hlt : s.next < items.length
      · rw [if_pos hlt] at hj
        by_cases hje : j = s.next
        · subst hje
          right
          refine ⟨w, ?_⟩
          rw [List.get?_set_eq_of_lt _ (by simpa [List.length_set] using hwlt)]
          simp [hlt]
        · have hj' : j < s.next + 1 := hj
          exact hcore (by omega)
      · rw [if_neg hlt] at hj
        have hj' : j < s.next := hj
        exact hcore hj'
    · intro j h1 h2
      have h1' : (if s.next < items.length then s.next + 1 else s.next) ≤ j := h1
      by_cases hlt : s.next < items.length
      · rw [if_pos hlt] at h1'
        have hne : i ≠ j := by omega
        rw [List.get?_set_ne _ _ hne]
        exact inv.unstarted j (by omega) h2
      · simp only [hlt, if_neg, not_false_iff] at h1
        omega
    · intro j b hb
      by_cases hij : i = j
      · subst hij
        rw [List.get?_set_eq_of_lt _ hirlt] at hb
        cases hb
        exact ⟨a, ha, rfl⟩
      · rw [List.get?_set_ne _ _ hij] at hb
        exact inv.content j b hb
    · intro hdone
      have hmem : (if s.next < items.length then some s.next else none) ∈
          (s.workers.set w (if s.next < items.length then some s.next else none)) := by
        have := List.get?_set_eq_of_lt
          (if s.next < items.length then some s.next else none) (l := s.workers) hwlt
        exact List.get?_mem this
      have := hdone _ hmem
      by_cases hlt : s.next < items.length
      · simp [hlt] at this
      · simpa [hlt] using le_of_not_lt hlt

/-- Every reachable pool state satisfies the invariant. -/
lemma poolInv_reachable {items : List α} {f : α → β} {K : ℕ} (hK : 1 ≤ K)
    {s : PoolState β} (h : PoolReachable items f K s) : PoolInv items f K s := by
  induction h with
  | refl => exact poolInv_init items f K hK
  | tail _ hstep ih => exact poolInv_step ih hstep

/-- `reduceOption` undoes `map some`. -/
lemma reduceOption_map_some {γ : Type} (l : List γ) : (l.map some).reduceOption = l := by
  induction l with
  | nil => rfl
  | cons x xs ih => simp [List.reduceOption_cons_of_some, ih]

/-- When all workers have finished, every slot holds its item's transform
value. -/
lemma pool_done_results {items : List α} {f : α → β} {K : ℕ} (hK : 1 ≤ K)
    {s : PoolState β} (hreach : PoolReachable items f K s) (hdone : poolDone s) :
    s.results = (items.map f).map some := by
  have inv := poolInv_reachable hK hreach
  have hnext : items.length ≤ s.next := inv.done_next hdone
  apply List.ext_get?_iff.mpr
  intro j
  by_cases hj : j < items.length
  · rcases inv.covered j (lt_of_lt_of_le hj hnext) with ⟨b, hb⟩ | ⟨w, hw⟩
    · rcases inv.content j b hb with ⟨a, ha, rfl⟩
      rw [hb, List.get?_map, List.get?_map, ha]
      rfl
    · exact absurd (hdone _ (List.get?_mem hw)) (by simp)
  · rw [List.get?_eq_none.mpr, List.get?_eq_none.mpr]
    · simpa using le_of_not_lt hj
    · rw [inv.rlen]; exact le_of_not_lt hj

/-- A result slot, once written, is never overwritten (the shared index
counter hands each index to exactly one worker, so no item is processed
twice). -/
lemma pool_no_overwrite {items : List α} {f : α → β} {K : ℕ} (hK : 1 ≤ K)
    {s s' : PoolState β} (hreach : PoolReachable items f K s)
    (hstep : PoolStep items f s s') :
    ∀ i b, s.results.get? i = some (some b) → s'.results.get? i = some (some b) := by
  intro i b hb
  have inv := poolInv_reachable hK hreach
  cases hstep with
  | complete w i0 a hw ha =>
    have hne : i0 ≠ i := by
      intro h
      subst h
      rw [inv.busy_unfilled w i0 hw] at hb
      cases hb
    show (s.results.set i0 (some (f a))).get? i = some (some b)
    rw [List.get?_set_ne _ _ hne]
    exact hb

/-- The workers array's length is fixed at `min K N` for the whole run. -/
lemma pool_workers_length {items : List α} {f : α → β} {K : ℕ}
    {s : PoolState β} (hreach : PoolReachable items f K s) :
    s.workers.length = min K items.length := by
  induction hreach with
  | refl => simp [initPool]
  | tail _ hstep ih =>
    cases hstep with
    | complete w i a hw ha => simpa [List.length_set] using ih

lemma poolEx1_reach : PoolReachable [10, 20] (fun n => n + 1) 1 poolEx1 := by
  refine Relation.ReflTransGen.tail Relation.ReflTransGen.refl ?_
  exact PoolStep.complete (initPool [10, 20] 1) 0 0 10 rfl rfl

lemma poolEx2_reach : PoolReachable [10, 20] (fun n => n + 1) 1 poolEx2 := by
  refine Relation.ReflTransGen.tail poolEx1_reach ?_
  exact PoolStep.complete poolEx1 0 1 20 rfl rfl

lemma poolEx2_done : poolDone poolEx2 := by
  intro ow how
  simpa [poolEx2] using how

/-! Helper lemmas about the rule engine. -/

/-- Pointwise description of sequential execution. -/
lemma executeRules_get? (rules : List Rule) (service : Service) (j : ℕ) :
    (executeRules rules service).get? j = (rules.get? j).map (fun r => runRule r service) := by
  induction rules generalizing j with
  | nil => cases j <;> rfl
  | cons r rs ih =>
    cases j with
    | zero => rfl
    | succ n => exact ih n

lemma executeRules_length (rules : List Rule) (service : Service) :
    (executeRules rules service).length = rules.length := by
  induction rules with
  | nil => rfl
  | cons r rs ih => simp [executeRules, ih]

lemma fillSlot_length (rules : List Rule) (svc : Service)
    (acc : List (Option RuleResult)) (i : ℕ) :
    (fillSlot rules svc acc i).length = acc.length := by
  cases h : rules.get? i with
  | none => simp only [fillSlot, h]
  | some r =>
    simp only [fillSlot, h]
    exact List.length_set acc i _

lemma foldl_fillSlot_length (rules : List Rule) (svc : Service) (order : List ℕ)
    (acc : List (Option RuleResult)) :
    (order.foldl (fillSlot rules svc) acc).length = acc.length := by
  induction order generalizing acc with
  | nil => rfl
  | cons i rest ih => rw [List.foldl_cons, ih, fillSlot_length]

/-- Slots whose index never completes keep their previous value. -/
lemma foldl_fillSlot_get?_not_mem {rules : List Rule} {svc : Service} {order : List ℕ}
    {acc : List (Option RuleResult)} {j : ℕ} (hj : j ∉ order) :
    (order.foldl (fillSlot rules svc) acc).get? j = acc.get? j := by
  induction order generalizing acc with
  | nil => rfl
  | cons i rest ih =>
    have hji : j ≠ i := fun h => hj (h ▸ List.mem_cons_self i rest)
    rw [List.foldl_cons, ih (fun h => hj (List.mem_cons_of_mem _ h))]
    cases h : rules.get? i with
    | none => simp only [fillSlot, h]
    | some r =>
      simp only [fillSlot, h]
      exact List.get?_set_ne _ _ (fun he => hji he.symm)

/-- A slot whose index completes at least once ends up holding its rule's
(converted) result, whatever the completion order. -/
lemma foldl_fillSlot_get?_mem {rules : List Rule} {svc : Service} {order : List ℕ}
    {acc : List (Option RuleResult)} {j : ℕ} (hmem : j ∈ order)
    (hlen : acc.length = rules.length) {r : Rule} (hr : rules.get? j = some r) :
    (order.foldl (fillSlot rules svc) acc).get? j = some (some (runRule r svc)) := by
  induction order generalizing acc with
  | nil => cases hmem
  | cons i rest ih =>
    rw [List.foldl_cons]
    by_cases hjr : j ∈ rest
    · exact ih hjr (by rw [fillSlot_length, hlen])
    · have hij : j = i := by
        rcases List.mem_cons.mp hmem with h | h
        · exact h
        · exact absurd h hjr
      subst hij
      rw [foldl_fillSlot_get?_not_mem hjr]
      have hjlt : j < acc.length := by
        rw [hlen]
        by_contra hcon
        rw [List.get?_eq_none.mpr (le_of_not_lt hcon)] at hr
        cases hr
      simp only [fillSlot, hr]
      exact List.get?_set_eq_of_lt _ hjlt

/-- For any completion order covering every index, the filled array equals
the sequential result list (`map some`). -/
lemma gather_eq_map (rules : List Rule) (svc : Service) (order : List ℕ)
    (h : order.Perm (List.range rules.length)) :
    order.foldl (fillSlot rules svc) (List.replicate rules.length none) =
      (executeRules rules svc).map some := by
  apply List.ext_get?_iff.mpr
  intro j
  by_cases hj : j < rules.length
  · obtain ⟨r, hr⟩ : ∃ r, rules.get? j = some r := by
      cases hq : rules.get? j with
      | none =>
        rw [List.get?_eq_none] at hq
        omega
      | some r => exact ⟨r, rfl⟩
    have hmem : j ∈ order := h.mem_iff.mpr (List.mem_range.mpr hj)
    rw [foldl_fillSlot_get?_mem hmem (by simp) hr, List.get?_map, executeRules_get?, hr]
    rfl
  · rw [List.get?_eq_none.mpr, List.get?_eq_none.mpr]
    · rw [List.length_map, executeRules_length]
      exact le_of_not_lt hj
    · rw [foldl_fillSlot_length, List.length_replicate]
      exact le_of_not_lt hj

/-! ## Claim theorems -/

/-- C5: for every service and rule list, concurrent execution collects the
(try/catch-converted) results in the original declaration order, whatever
the completion order of the in-flight evaluations, so sequential and
concurrent modes yield identical `RuleResult` lists. -/
theorem executeRulesParallel_eq_executeRules (rules : List Rule) (service : Service)
    (order : List ℕ) (h : order.Perm (List.range rules.length)) :
    executeRulesParallel rules service order = executeRules rules service := by
  unfold executeRulesParallel
  rw [gather_eq_map rules service order h, reduceOption_map_some]

/-- Witness for C5 at a concrete two-rule list with reversed completion
order. -/
theorem executeRulesParallel_eq_executeRules_witness :
    ([1, 0] : List ℕ).Perm (List.range 2) ∧
    executeRulesParallel [ruleR1, ruleThrows] svcEx [1, 0] =
      executeRules [ruleR1, ruleThrows] svcEx :=
  ⟨by decide, executeRulesParallel_eq_executeRules [ruleR1, ruleThrows] svcEx [1, 0] (by decide)⟩

/-- C8: in sequential execution a rule that throws is converted into a
synthetic failing result named after the rule with message
`Rule execution failed: <cause>`, the remaining rules still run (their
results are untouched), and the result list keeps one entry per rule. -/
theorem executeRules_exception_isolated (rules : List Rule) (service : Service)
    (i : ℕ) (rule : Rule) (e : String)
    (hi : rules.get? i = some rule) (herr : rule.eval service = .error e) :
    (executeRules rules service).length = rules.length ∧
    (executeRules rules service).get? i =
      some { ruleName := rule.name, passed := false
             message := "Rule execution failed: " ++ e } ∧
    ∀ j rule' res, rules.get? j = some rule' → rule'.eval service = .ok res →
      (executeRules rules service).get? j = some res := by
  refine ⟨executeRules_length rules service, ?_, ?_⟩
  · rw [executeRules_get?, hi]
    simp [runRule, herr]
  · intro j rule' res hj hok
    rw [executeRules_get?, hj]
    simp [runRule, hok]

/-- Witness for C8: a crashing second rule next to a healthy first rule. -/
theorem executeRules_exception_isolated_witness :
    ([ruleR1, ruleThrows].get? 1 = some ruleThrows) ∧
    (ruleThrows.eval svcEx = .error "boom") ∧
    (executeRules [ruleR1, ruleThrows] svcEx).length = 2 ∧
    (executeRules [ruleR1, ruleThrows] svcEx).get? 1 =
      some { ruleName := "Crashy", passed := false
             message := "Rule execution failed: boom" } ∧
    (executeRules [ruleR1, ruleThrows] svcEx).get? 0 =
      some { ruleName := "R1", passed := true, message := "ok" } := by
  have h := executeRules_exception_isolated [ruleR1, ruleThrows] svcEx 1 ruleThrows "boom"
    rfl rfl
  exact ⟨rfl, rfl, h.1, h.2.1, h.2.2 0 ruleR1 _ rfl rfl⟩

/-- C10: `FileExistsRule.evaluate` selects glob matching exactly when the
target contains `*` or `{`; any target free of those two characters (for
example one containing only `?` or `[`) is evaluated as a literal relative
path. -/
theorem fileExists_glob_selection (target : String) :
    (isGlobPattern target = true ↔ '*' ∈ target.data ∨ '{' ∈ target.data) ∧
    (∀ ruleName svcPath fsEntry globFn,
      '*' ∉ target.data → '{' ∉ target.data →
      fileExistsEvaluate ruleName target svcPath fsEntry globFn =
        evaluateSimplePath ruleName target svcPath fsEntry) ∧
    (∀ ruleName svcPath fsEntry globFn,
      ('*' ∈ target.data ∨ '{' ∈ target.data) →
      fileExistsEvaluate ruleName target svcPath fsEntry globFn =
        evaluateGlob ruleName target svcPath globFn) := by
  have hiff : isGlobPattern target = true ↔ '*' ∈ target.data ∨ '{' ∈ target.data := by
    simp [isGlobPattern]
  refine ⟨hiff, ?_, ?_⟩
  · intro rn sp fs gf h1 h2
    have hng : ¬ (isGlobPattern target = true) := by
      rw [hiff]
      rintro (hc | hc)
      · exact h1 hc
      · exact h2 hc
    simp [fileExistsEvaluate, hng]
  · intro rn sp fs gf h
    simp [fileExistsEvaluate, hiff.mpr h]

/-- Witness for C10: a target containing `?` (a glob metacharacter the
source does not test for) goes down the literal-path branch. -/
theorem fileExists_glob_selection_witness :
    ('*' ∉ ("file?.txt" : String).data ∧ '{' ∉ ("file?.txt" : String).data) ∧
    fileExistsEvaluate "readme" "file?.txt" "/repo/svc" (fun _ => none) (fun _ _ => []) =
      evaluateSimplePath "readme" "file?.txt" "/repo/svc" (fun _ => none) :=
  ⟨by decide,
    (fileExists_glob_selection "file?.txt").2.1 "readme" "/repo/svc" _ _
      (by decide) (by decide)⟩

/-- C2 counterexample: a caller-supplied `exclude` list replaces the
defaults — with `exclude = ["**/tmp/**"]` the effective patterns are just
`["**/tmp/**"]` and the default `**/node_modules/**` is no longer
excluded, contradicting "the defaults are applied unconditionally and are
never replaced". -/
theorem scannerExclude_counterexample :
    scannerExclude (some ["**/tmp/**"]) = ["**/tmp/**"] ∧
    "**/node_modules/**" ∉ scannerExclude (some ["**/tmp/**"]) := by
  refine ⟨rfl, ?_⟩
  decide

/-- C2 amended: the scanner's effective exclusion patterns are the
caller's list as-is whenever an `exclude` option is supplied; the built-in
defaults apply only when the option is absent. -/
theorem scannerExclude_semantics :
    scannerExclude none = defaultExclude ∧
    ∀ patterns, scannerExclude (some patterns) = patterns :=
  ⟨rfl, fun _ => rfl⟩

/-- `checkRequiredRules` returns false exactly when some result carrying a
required spec's name failed. -/
lemma checkRequiredRules_eq_false_iff (config : AuditorConfig) (results : List RuleResult) :
    checkRequiredRules config results = false ↔
      ∃ res ∈ results,
        res.ruleName ∈ (config.rules.filter (·.required)).map (·.name) ∧
        res.passed = false := by
  unfold checkRequiredRules
  rw [List.all_eq_false]
  constructor
  · rintro ⟨res, hmem, hp⟩
    simp only [Bool.not_eq_true, Bool.or_eq_false_iff, Bool.not_eq_false] at hp
    exact ⟨res, hmem, by simpa using hp.1, hp.2⟩
  · rintro ⟨res, hmem, hin, hpf⟩
    refine ⟨res, hmem, ?_⟩
    simp [hin, hpf]

/-- C3 counterexample: two specs share the name `A` — the first required,
the second optional.  The only required spec's result (index 0) passes and
the optional rule's result fails, yet the service verdict is `false`: a
failing non-required rule flipped `passed` because name-based matching
attributed its result to the required spec. -/
theorem requiredRules_name_collision_counterexample :
    cfgDup.rules.map (·.required) = [true, false] ∧
    (auditSingleService cfgDup [ruleAPass, ruleAFail] svcEx []).results =
      [{ ruleName := "A", passed := true, message := "ok" },
       { ruleName := "A", passed := false, message := "missing" }] ∧
    (auditSingleService cfgDup [ruleAPass, ruleAFail] svcEx []).passed = false := by
  refine ⟨rfl, rfl, rfl⟩

/-- C3 amended: `passed` is false iff at least one rule result whose
`ruleName` equals the name of some `required:true` spec has
`passed:false` (when rule names are unique this coincides with "some
required rule's result failed"); with zero results `passed` is vacuously
true. -/
theorem auditSingleService_passed_iff (config : AuditorConfig) (rules : List Rule)
    (service : Service) (order : List ℕ) :
    ((auditSingleService config rules service order).passed = false ↔
      ∃ res ∈ (auditSingleService config rules service order).results,
        res.ruleName ∈ (config.rules.filter (·.required)).map (·.name) ∧
        res.passed = false) ∧
    ((auditSingleService config rules service order).results = [] →
      (auditSingleService config rules service order).passed = true) := by
  have hpass : (auditSingleService config rules service order).passed =
      checkRequiredRules config ((auditSingleService config rules service order).results) := rfl
  constructor
  · rw [hpass]
    exact checkRequiredRules_eq_false_iff config _
  · intro h
    rw [hpass, h]
    rfl

/-- Witness for C3's amended claim: zero rules give a vacuously passing
service. -/
theorem auditSingleService_passed_iff_witness :
    (auditSingleService cfgThree [] svcEx []).results = [] ∧
    (auditSingleService cfgThree [] svcEx []).passed = true :=
  ⟨rfl, (auditSingleService_passed_iff cfgThree [] svcEx []).2 rfl⟩

/-- C4: the service score is `100 * passedCount / totalCount` rounded to
one decimal place, and `0` when no rules ran. -/
theorem auditSingleService_score_spec (config : AuditorConfig) (rules : List Rule)
    (service : Service) (order : List ℕ) (t p : ℕ)
    (ht : (auditSingleService config rules service order).results.length = t)
    (hp : ((auditSingleService config rules service order).results.filter (·.passed)).length
      = p) :
    (t = 0 → (auditSingleService config rules service order).score = 0) ∧
    (0 < t → (auditSingleService config rules service order).score =
      roundTo1 (100 * (p : ℚ) / (t : ℚ))) := by
  have hscore : (auditSingleService config rules service order).score =
      (jsRound (rawScore ((auditSingleService config rules service order).results) * 10) : ℚ)
        / 10 := rfl
  constructor
  · intro h0
    rw [hscore]
    unfold rawScore
    rw [ht, h0]
    norm_num [jsRound]
  · intro hpos
    rw [hscore]
    unfold rawScore
    rw [ht, hp, if_pos hpos]
    have harg : (p : ℚ) / (t : ℚ) * 100 * 10 = 100 * (p : ℚ) / (t : ℚ) * 10 := by ring
    rw [roundTo1, harg]

/-- Witness for C4: two of three rules pass, score `66.7`. -/
theorem auditSingleService_score_spec_witness :
    (0 < 3) ∧
    (auditSingleService cfgThree [ruleR1, ruleR2, ruleR3] svcEx []).score = 667 / 10 := by
  have h := (auditSingleService_score_spec cfgThree [ruleR1, ruleR2, ruleR3] svcEx [] 3 2
    rfl rfl).2 (by norm_num)
  refine ⟨by norm_num, ?_⟩
  rw [h]
  have hfl : ⌊(100 * ((2 : ℕ) : ℚ) / ((3 : ℕ) : ℚ) * 10 + 1/2)⌋ = (667 : ℤ) := by
    apply Int.floor_eq_iff.mpr
    constructor <;> norm_num
  rw [roundTo1, jsRound, hfl]
  norm_num

/-- The failing coverage message always contains the words
`below threshold`, whatever the numeral renderings are. -/
lemma below_threshold_infix (x y : String) :
    List.IsInfix ("below threshold" : String).data
      ("Coverage " ++ x ++ "% is below threshold of " ++ y ++ "%").data := by
  refine ⟨("Coverage " ++ x ++ "% is ").data, (" of " ++ y ++ "%").data, ?_⟩
  simp [List.append_assoc]

/-- C9: the coverage rule passes iff the arithmetic mean of the four
metric percentages reaches the threshold (inclusive); a missing or
unparsable artifact yields a failing result with an explanatory message
(the `catch` branch — `evaluate` is total, no error escapes); below the
threshold the result fails with a message containing `below threshold`. -/
theorem coverageRule_spec (ruleName : String) (threshold : ℚ) (svcPath : String)
    (fmt : ℚ → String) :
    (∀ s : CoverageSummary,
      ((coverageEvaluate ruleName threshold svcPath (some s) fmt).passed = true ↔
        threshold ≤ (s.lines + s.statements + s.functions + s.branches) / 4)) ∧
    ((coverageEvaluate ruleName threshold svcPath none fmt).passed = false ∧
      (coverageEvaluate ruleName threshold svcPath none fmt).message =
        "Coverage report not found or invalid at " ++ svcPath ++
          "/coverage/coverage-summary.json") ∧
    (∀ s : CoverageSummary,
      (s.lines + s.statements + s.functions + s.branches) / 4 < threshold →
      (coverageEvaluate ruleName threshold svcPath (some s) fmt).passed = false ∧
      List.IsInfix ("below threshold" : String).data
        (coverageEvaluate ruleName threshold svcPath (some s) fmt).message.data) := by
  refine ⟨?_, ⟨rfl, rfl⟩, ?_⟩
  · intro s
    simp [coverageEvaluate, ge_iff_le]
  · intro s hlt
    have hnp : ¬ (threshold ≤ (s.lines + s.statements + s.functions + s.branches) / 4) :=
      not_le.mpr hlt
    constructor
    · simp [coverageEvaluate, hnp]
    · have hmsg : (coverageEvaluate ruleName threshold svcPath (some s) fmt).message =
          "Coverage " ++ fmt ((s.lines + s.statements + s.functions + s.branches) / 4) ++
            "% is below threshold of " ++ fmt threshold ++ "%" := by
        simp [coverageEvaluate, hnp]
      rw [hmsg]
      exact below_threshold_infix _ _

/-- Witness for C9: metrics 90/80/90/70 versus threshold 85 — mean 82.5,
failing result whose message contains `below threshold`. -/
theorem coverageRule_spec_witness :
    (((90 : ℚ) + 80 + 90 + 70) / 4 < 85) ∧
    (coverageEvaluate "coverage" 85 "/repo/svc"
      (some { lines := 90, statements := 80, functions := 90, branches := 70 })
      (fun _ => "n")).passed = false ∧
    List.IsInfix ("below threshold" : String).data
      (coverageEvaluate "coverage" 85 "/repo/svc"
        (some { lines := 90, statements := 80, functions := 90, branches := 70 })
        (fun _ => "n")).message.data := by
  have h := (coverageRule_spec "coverage" 85 "/repo/svc" (fun _ => "n")).2.2
    { lines := 90, statements := 80, functions := 90, branches := 70 } (by norm_num)
  exact ⟨by norm_num, h.1, h.2⟩

/-- A successfully constructed rule's spec had a kind the factory knows. -/
lemma createRule_ok_known {mkEval : RuleSpec → Service → Except String RuleResult}
    {c : RuleSpec} {r : Rule} (hc : createRule mkEval c = .ok r) :
    c.type ∈ knownRuleKinds := by
  unfold createRule at hc
  split at hc
  · simp_all [knownRuleKinds]
  · simp_all [knownRuleKinds]
  · simp_all [knownRuleKinds]
  · cases hc
  · cases hc

/-- If some spec's kind is unknown, instantiation of the whole list
throws. -/
lemma createRules_unknown_error (mkEval : RuleSpec → Service → Except String RuleResult)
    (configs : List RuleSpec)
    (hbad : ∃ spec ∈ configs, spec.type ∉ knownRuleKinds) :
    ∃ e, createRules mkEval configs = .error e := by
  induction configs with
  | nil =>
    rcases hbad with ⟨spec, hmem, _⟩
    cases hmem
  | cons c cs ih =>
    cases hc : createRule mkEval c with
    | error e =>
      refine ⟨e, ?_⟩
      unfold createRules
      rw [List.mapM_cons, hc]
      rfl
    | ok r =>
      have hbad' : ∃ spec ∈ cs, spec.type ∉ knownRuleKinds := by
        rcases hbad with ⟨spec, hmem, hnk⟩
        rcases List.mem_cons.mp hmem with rfl | hmem'
        · exact absurd (createRule_ok_known hc) hnk
        · exact ⟨spec, hmem', hnk⟩
      obtain ⟨e, he⟩ := ih hbad'
      refine ⟨e, ?_⟩
      unfold createRules at he ⊢
      rw [List.mapM_cons, hc, he]
      rfl

/-- C1 amended: when an unknown rule kind is configured and discovery has
found at least one service, the run aborts with the instantiation error —
after service discovery (which runs first and reads the services'
manifests) but before any service is evaluated (the outcome is the same
error for every possible per-service evaluation behaviour), and no report
is produced.  (With zero discovered services the run instead
short-circuits to an empty report before rules are instantiated — see the
counterexample.) -/
theorem audit_unknownKind_aborts (config : AuditorConfig)
    (mkEval : RuleSpec → Service → Except String RuleResult)
    (services : List Service) (hserv : services ≠ [])
    (hbad : ∃ spec ∈ config.rules, spec.type ∉ knownRuleKinds) :
    ∃ e, createRules mkEval config.rules = .error e ∧
      ∀ evalService, audit config mkEval (.ok services) evalService = .error e := by
  obtain ⟨e, he⟩ := createRules_unknown_error mkEval config.rules hbad
  refine ⟨e, he, fun evalService => ?_⟩
  have h0 : ¬ (services.length = 0) := by
    simpa [List.length_eq_zero] using hserv
  simp only [audit]
  rw [if_neg h0, he]

/-- Witness for C1's amended claim at a concrete nonempty scan. -/
theorem audit_unknownKind_aborts_witness :
    ([svcEx] ≠ ([] : List Service)) ∧
    (∃ spec ∈ cfgBadKind.rules, spec.type ∉ knownRuleKinds) ∧
    ∃ e, createRules (fun _ _ => .error "unused") cfgBadKind.rules = .error e ∧
      audit cfgBadKind (fun _ _ => .error "unused") (.ok [svcEx])
        (fun s _ => auditSingleService cfgBadKind [] s []) = .error e := by
  have h := audit_unknownKind_aborts cfgBadKind (fun _ _ => .error "unused") [svcEx]
    (by simp) ⟨{ name := "My Rule", type := "bogus", required := true },
      by simp [cfgBadKind], by decide⟩
  obtain ⟨e, he, hall⟩ := h
  exact ⟨by simp, ⟨{ name := "My Rule", type := "bogus", required := true },
    by simp [cfgBadKind], by decide⟩, e, he, hall _⟩

/-- C1 counterexample: with the same unknown-kind configuration but an
empty scan result, `audit` raises no error at all and produces (the empty)
report — instantiation never runs, so the unknown kind is not a fatal
error for every configuration containing one, and discovery (touching the
services) always precedes instantiation. -/
theorem audit_unknownKind_counterexample :
    ("bogus" ∉ knownRuleKinds) ∧
    cfgBadKind.rules = [{ name := "My Rule", type := "bogus", required := true }] ∧
    audit cfgBadKind (fun _ _ => .error "unused") (.ok [])
      (fun s _ => auditSingleService cfgBadKind [] s []) = .ok createEmptyReport := by
  exact ⟨by decide, rfl, rfl⟩

/-- C6: for every item list, transform and limit K ≥ 1, whenever all
workers of the bounded-concurrency mapper have finished, the results array
holds exactly the input-order image of the transform (N results, i-th
output from i-th input, none skipped); moreover a slot once written is
never overwritten — the shared index counter hands each index to exactly
one worker, so no item is processed twice. -/
theorem mapWithConcurrency_in_order {α β : Type} (items : List α) (f : α → β) (K : ℕ)
    (hK : 1 ≤ K) :
    (∀ s : PoolState β, PoolReachable items f K s → poolDone s →
      poolReturn s = items.map f) ∧
    (∀ s s' : PoolState β, PoolReachable items f K s → PoolStep items f s s' →
      ∀ i b, s.results.get? i = some (some b) → s'.results.get? i = some (some b)) := by
  constructor
  · intro s hreach hdone
    unfold poolReturn
    rw [pool_done_results hK hreach hdone, reduceOption_map_some]
  · intro s s' hreach hstep
    exact pool_no_overwrite hK hreach hstep

/-- Witness for C6 at the concrete one-worker run over `[10, 20]`. -/
theorem mapWithConcurrency_in_order_witness :
    (1 ≤ 1) ∧ poolReturn poolEx2 = [10, 20].map (fun n => n + 1) :=
  ⟨le_rfl, (mapWithConcurrency_in_order [10, 20] (fun n => n + 1) 1 le_rfl).1 poolEx2
    poolEx2_reach poolEx2_done⟩

/-- C7: with concurrency limit K over N ≥ K items, no reachable state of
the mapper has more than K transform invocations in flight. -/
theorem mapWithConcurrency_bounded {α β : Type} (items : List α) (f : α → β) (K : ℕ)
    (hKN : K ≤ items.length) (s : PoolState β) (hreach : PoolReachable items f K s) :
    inFlight s ≤ K := by
  calc inFlight s ≤ s.workers.length := List.length_filter_le _ _
    _ = min K items.length := pool_workers_length hreach
    _ ≤ K := min_le_left _ _

/-- Witness for C7 at the concrete run, mid-flight. -/
theorem mapWithConcurrency_bounded_witness :
    (1 ≤ ([10, 20] : List ℕ).length) ∧ inFlight poolEx1 ≤ 1 :=
  ⟨by decide, mapWithConcurrency_bounded [10, 20] (fun n => n + 1) 1 (by decide) poolEx1
    poolEx1_reach⟩

end SSA
